import Mathlib

/-!
Verification of the Casanovo output mapper
(`algorithms/casanovo/output_mapper.py`): a shallow embedding of the
`OutputMapper` class, which normalizes predicted peptide sequences,
per-token confidence scores and scan indices into the benchmark's
common output format.

Modelling conventions:
* Python strings are modelled as `String` / `List Char`; the regular
  expressions used by the mapper (`^([0-9.+-]+)([A-Z])`, `[a-z=_]`,
  `\[(\d+)\]`) are over ASCII character classes and are embedded as
  explicit scanners over `List Char`.
* Python `float` scores are modelled by the exact decimal type `Dec`
  (an integer mantissa over a power-of-ten denominator).  The mapper
  only parses decimal literals, adds two scores and halves the sum, so
  every value it manipulates is an exact decimal; binary floating-point
  rounding is not modelled.  `str(float)` is modelled as the shortest
  decimal representation with at least one fractional digit, which
  agrees with Python on such exact values.
* Python exceptions (`ValueError` from `float`, `IndexError` from list
  indexing, `AttributeError` from the missing `format_sequence`
  method) are modelled with `Except` and the error types below.
-/

deriving instance DecidableEq for Except

/-- ASCII decimal digit, the `\d` / `[0-9]` class of the mapper's regexes. -/
def isDigitChar (c : Char) : Bool := 48 ≤ c.toNat && c.toNat ≤ 57

/-- ASCII uppercase letter, the `[A-Z]` class (an amino-acid residue symbol). -/
def isResidueChar (c : Char) : Bool := 65 ≤ c.toNat && c.toNat ≤ 90

/-- ASCII lowercase letter, part of the `[a-z=_]` strip class of `format_scan_index`. -/
def isLowerChar (c : Char) : Bool := 97 ≤ c.toNat && c.toNat ≤ 122

/-- The `[0-9.+-]` class of `N_TERM_MOD_PATTERN`: characters that can make up
an N-terminal modification marker. -/
def isMarkerChar (c : Char) : Bool :=
  isDigitChar c || c == '.' || c == '+' || c == '-'

/-- Numeric value of a list of ASCII digit characters (Python `int` on a
digit string, as used by `_transform_match_file_idx`). -/
def digitsToNat (ds : List Char) : ℕ :=
  ds.foldl (fun a c => 10 * a + (c.toNat - 48)) 0

/-- Decimal digit character for `n % 10` (used to print numbers). -/
def digitChar (n : ℕ) : Char :=
  ['0', '1', '2', '3', '4', '5', '6', '7', '8', '9'].getD (n % 10) '9'

/-- Fuelled decimal printer for naturals; `fuel ≥ 1 + number of digits`
suffices, and `natToChars` always supplies enough. -/
def natToCharsAux : ℕ → ℕ → List Char
  | 0, _ => []
  | fuel + 1, n =>
    if n < 10 then [digitChar n]
    else natToCharsAux fuel (n / 10) ++ [digitChar (n % 10)]

/-- Decimal representation of a natural number (Python `str` on an `int ≥ 0`). -/
def natToChars (n : ℕ) : List Char := natToCharsAux (n + 1) n

/-- Decimal representation of an integer (Python `str` on an `int`),
as produced by the f-string `f"F{file_idx - 1}"`. -/
def intToChars (i : ℤ) : List Char :=
  if i < 0 then '-' :: natToChars i.natAbs else natToChars i.natAbs

/-- An exact decimal number `num / 10 ^ exp`: the model of the Python
`float` values the mapper manipulates (see the header comment). -/
structure Dec where
  num : ℤ
  exp : ℕ
deriving DecidableEq, Repr

/-- Exact addition of decimals (aligning the two exponents). -/
def Dec.add (a b : Dec) : Dec :=
  ⟨a.num * 10 ^ (max a.exp b.exp - a.exp) + b.num * 10 ^ (max a.exp b.exp - b.exp),
   max a.exp b.exp⟩

/-- Exact halving of a decimal: `n / 10^e / 2` is `(n/2) / 10^e` when `n`
is even and `(5n) / 10^(e+1)` otherwise. -/
def Dec.half (a : Dec) : Dec :=
  if a.num % 2 = 0 then ⟨a.num / 2, a.exp⟩ else ⟨a.num * 5, a.exp + 1⟩

/-- Strip factors of ten from the mantissa (normalize to the shortest
decimal representation); structural on the exponent. -/
def decNorm : ℤ → ℕ → ℤ × ℕ
  | n, 0 => (n, 0)
  | n, e + 1 => if n % 10 = 0 then decNorm (n / 10) e else (n, e + 1)

/-- Left-pad a digit list with `'0'` to length `e`. -/
def padZeros (e : ℕ) (ds : List Char) : List Char :=
  List.replicate (e - ds.length) '0' ++ ds

/-- Serialize a mantissa `n` over exponent `e ≥ 1` as `[-]ip.fp`. -/
def formatScoreParts (n : ℤ) (e : ℕ) : List Char :=
  (if n < 0 then ['-'] else []) ++
    natToChars (n.natAbs / 10 ^ e) ++ '.' :: padZeros e (natToChars (n.natAbs % 10 ^ e))

/-- Model of Python `str(float)` on an exact decimal: shortest decimal
form, with at least one fractional digit (`str(3.0) = "3.0"`). -/
def formatScore (d : Dec) : List Char :=
  if (decNorm d.num d.exp).2 = 0 then formatScoreParts ((decNorm d.num d.exp).1 * 10) 1
  else formatScoreParts (decNorm d.num d.exp).1 (decNorm d.num d.exp).2

/-- `",".join`, as used by `_format_scores`. -/
def joinComma : List (List Char) → List Char
  | [] => []
  | [x] => x
  | x :: xs => x ++ ',' :: joinComma xs

/-- `OutputMapper._format_scores`: write a list of per-token scores as a
comma-separated string. -/
def format_scores (l : List Dec) : List Char := joinComma (l.map formatScore)

/-- Python `str.split(",")`: the comma-separated fields of a string
(`"".split(",") = [""]`, so the result is never empty). -/
def splitOnComma : List Char → List (List Char)
  | [] => [[]]
  | c :: rest =>
    if c = ',' then [] :: splitOnComma rest
    else
      match splitOnComma rest with
      | [] => [[c]]
      | f :: fs => (c :: f) :: fs

/-- Model of Python `float(s)` on the decimal-literal grammar
`[ws] [sign] (digits [. digits] | digits . | . digits) [(e|E) [sign] digits] [ws]`;
`none` models a raised `ValueError`.  (Python's `inf`/`nan`/underscore and
non-ASCII digit forms never occur in score strings and are not modelled.) -/
def parseFloat (s0 : List Char) : Option Dec :=
  let s1 := (s0.dropWhile (fun c => c == ' ' || c == '\t')).reverse
  let s2 := (s1.dropWhile (fun c => c == ' ' || c == '\t')).reverse
  let signAndRest : ℤ × List Char :=
    match s2 with
    | '+' :: t => (1, t)
    | '-' :: t => (-1, t)
    | t => (1, t)
  let sgn := signAndRest.1
  let s3 := signAndRest.2
  let ip := s3.takeWhile isDigitChar
  let s4 := s3.drop ip.length
  let fpAndRest : List Char × List Char :=
    match s4 with
    | '.' :: t => (t.takeWhile isDigitChar, t.drop (t.takeWhile isDigitChar).length)
    | t => ([], t)
  let fp := fpAndRest.1
  let s5 := fpAndRest.2
  if ip.isEmpty && fp.isEmpty then none
  else
    let mant : Dec := ⟨sgn * (digitsToNat (ip ++ fp) : ℤ), fp.length⟩
    match s5 with
    | [] => some mant
    | c :: t =>
      if c == 'e' || c == 'E' then
        let expAndRest : Bool × List Char :=
          match t with
          | '+' :: u => (true, u)
          | '-' :: u => (false, u)
          | u => (true, u)
        let ds := expAndRest.2.takeWhile isDigitChar
        if ds.isEmpty || !(expAndRest.2.drop ds.length).isEmpty then none
        else
          let k := digitsToNat ds
          some (if expAndRest.1 then ⟨mant.num * 10 ^ k, mant.exp⟩
                else ⟨mant.num, mant.exp + k⟩)
      else none

/-- Parse every comma-separated field as a float; `none` models the
`ValueError` that aborts `_parse_scores`. -/
def parseFields : List (List Char) → Option (List Dec)
  | [] => some []
  | x :: xs =>
    match parseFloat x, parseFields xs with
    | some v, some vs => some (v :: vs)
    | _, _ => none

/-- `OutputMapper._parse_scores`: split on `','` and convert each field
with `float`. -/
def parse_scores (s : List Char) : Option (List Dec) :=
  parseFields (splitOnComma s)

/-- Fuelled model of Python `str.replace(pat, new)`: scan left to right,
replace each non-overlapping occurrence, continue after the replaced
text.  `fuel ≥ s.length` suffices when `pat ≠ []`. -/
def replaceAllAux (pat new : List Char) : ℕ → List Char → List Char
  | 0, s => s
  | _ + 1, [] => []
  | fuel + 1, c :: rest =>
    if pat.isPrefixOf (c :: rest) then
      new ++ replaceAllAux pat new fuel ((c :: rest).drop pat.length)
    else
      c :: replaceAllAux pat new fuel rest

/-- Python `s.replace(pat, new)` for a non-empty `pat`. -/
def replaceAll (pat new s : List Char) : List Char :=
  replaceAllAux pat new s.length s

/-- The marker part `"+57.021"` of the replaced spelling. -/
def replTail : List Char := ['+', '5', '7', '.', '0', '2', '1']

/-- The single entry of `OutputMapper.REPLACEMENTS`: the spelling
`"C+57.021"` that is rewritten. -/
def replOld : List Char := 'C' :: replTail

/-- The replacement text `"C"` of the single `REPLACEMENTS` entry. -/
def replNew : List Char := ['C']

/-- The spelling `"C+57.021+57.021"`: a `REPLACEMENTS` match immediately
followed by a second marker, the shape on which one `str.replace` pass
leaves a fresh match behind. -/
def replOldDoubled : List Char := replOld ++ replTail

/-- The fixed-substitution step of `format_sequence_and_scores`: apply
every `REPLACEMENTS` entry with `str.replace`. -/
def applyReplacements (s : List Char) : List Char := replaceAll replOld replNew s

/-- Whether `re.search(N_TERM_MOD_PATTERN, s)` finds a match: the pattern
`^([0-9.+-]+)([A-Z])` is anchored, its two classes are disjoint, so it
matches iff the maximal marker-character prefix is non-empty and the
character right after it is an uppercase letter. -/
def nTermMatches (s : List Char) : Bool :=
  match s.takeWhile isMarkerChar, s.dropWhile isMarkerChar with
  | [], _ => false
  | _ :: _, c :: _ => isResidueChar c
  | _ :: _, [] => false

/-- `re.sub(N_TERM_MOD_PATTERN, _transform_match_n_term_mod, s)`: move the
N-terminal marker group behind the first residue (`ptm aa ↦ aa ptm`);
the anchored pattern rewrites at most the one match at the start. -/
def nTermSub (s : List Char) : List Char :=
  match s.dropWhile isMarkerChar with
  | [] => s
  | c :: rest => c :: (s.takeWhile isMarkerChar ++ rest)

/-- The Python exceptions `format_sequence_and_scores` can raise:
`ValueError` from `float`, `IndexError` from `aa_scores[0]`/`aa_scores[1]`. -/
inductive AlignError
  | scoreParseError
  | indexError
deriving DecidableEq, Repr

/-- `OutputMapper.format_sequence_and_scores`: apply the fixed
substitutions; if the result starts with an N-terminal modification
marker, move the marker behind the first residue and merge the first two
scores into their arithmetic mean, dropping one score; otherwise pass the
score string through untouched (it is not even parsed). -/
def format_sequence_and_scores (sequence aa_scores : String) :
    Except AlignError (String × String) :=
  let seq := applyReplacements sequence.toList
  if nTermMatches seq then
    match parse_scores aa_scores.toList with
    | none => .error .scoreParseError
    | some [] => .error .indexError
    | some [_] => .error .indexError
    | some (s0 :: s1 :: rest) =>
      .ok (⟨nTermSub seq⟩, ⟨format_scores ((s0.add s1).half :: rest)⟩)
  else
    .ok (⟨seq⟩, aa_scores)

/-- `re.sub("[a-z=_]", "", s)`: drop lowercase letters, `'='` and `'_'`. -/
def stripMarkers (s : List Char) : List Char :=
  s.filter (fun c => !(isLowerChar c || c == '=' || c == '_'))

/-- Fuelled model of `re.sub("\[(\d+)\]", _transform_match_file_idx, s)`:
at each position try to match `'['`, one or more digits, `']'`; on a
match emit `F` followed by the bracketed number minus one and continue
after the `']'`. -/
def subFileIdxAux : ℕ → List Char → List Char
  | 0, s => s
  | _ + 1, [] => []
  | fuel + 1, c :: rest =>
    if c = '[' then
      let ds := rest.takeWhile isDigitChar
      if ds.isEmpty then c :: subFileIdxAux fuel rest
      else
        match rest.drop ds.length with
        | ']' :: r =>
          'F' :: intToChars ((digitsToNat ds : ℤ) - 1) ++ subFileIdxAux fuel r
        | _ => c :: subFileIdxAux fuel rest
    else c :: subFileIdxAux fuel rest

/-- `OutputMapper.format_scan_index`: strip `[a-z=_]`, then rewrite each
bracketed file number `[i]` to `F(i-1)`. -/
def format_scan_index (scan_index : String) : String :=
  ⟨subFileIdxAux (stripMarkers scan_index.toList).length
    (stripMarkers scan_index.toList)⟩

/-- One row of the prediction table, with the columns the mapper rewrites. -/
structure Row where
  sequence : String
  aa_scores : String
  scan_indices : String
deriving DecidableEq, Repr

/-- Failures of `format_output`: a per-row exception propagated by
`DataFrame.apply`, or the `AttributeError` raised because the class has no
`format_sequence` method (the no-score-column branch references it). -/
inductive DriverError
  | rowError (e : AlignError)
  | missingFormatSequence
deriving DecidableEq, Repr

/-- Transform one row's sequence and scores, keeping its scan index. -/
def formatRow (r : Row) : Except DriverError Row :=
  match format_sequence_and_scores r.sequence r.aa_scores with
  | .error e => .error (.rowError e)
  | .ok (s, sc) => .ok ⟨s, sc, r.scan_indices⟩

/-- Apply `formatRow` to every row, stopping at the first failing row
(`DataFrame.apply` propagates the exception). -/
def formatRows : List Row → Except DriverError (List Row)
  | [] => .ok []
  | r :: rs =>
    match formatRow r, formatRows rs with
    | .ok r', .ok rs' => .ok (r' :: rs')
    | .error e, _ => .error e
    | _, .error e => .error e

/-- `OutputMapper.format_output`: when the `aa_scores` column is present,
rewrite every row's sequence/scores pair and then remap every scan index;
when it is absent, the code evaluates `self.format_sequence`, an attribute
`OutputMapper` does not define, so the whole batch fails with
`AttributeError` before any row is touched. -/
def format_output (hasScoresColumn : Bool) (rows : List Row) :
    Except DriverError (List Row) :=
  if hasScoresColumn then
    match formatRows rows with
    | .error e => .error e
    | .ok rows' =>
      .ok (rows'.map (fun r => ⟨r.sequence, r.aa_scores, format_scan_index r.scan_indices⟩))
  else
    .error .missingFormatSequence

/-- Python's substring test `pat in s` (for the spellings of
`REPLACEMENTS`): some position of `s` starts with `pat`. -/
def containsSub (pat : List Char) : List Char → Bool
  | [] => pat.isEmpty
  | c :: rest => pat.isPrefixOf (c :: rest) || containsSub pat rest

/-- The fixed-substitution step of `format_sequence_and_scores` as a
`String` transformation. -/
def applyReplacementsStr (s : String) : String := ⟨applyReplacements s.toList⟩

/-- A character a peptide sequence in the mapper's notation may contain:
a residue symbol or a modification-marker character. -/
def seqValid (s : List Char) : Bool :=
  s.all (fun c => isResidueChar c || isMarkerChar c)

/-- One extra token when a sequence opens with a modification marker
(which the source notation counts as a token of its own), zero otherwise. -/
def leadAdjust : Option Char → ℕ
  | none => 0
  | some c => if isResidueChar c then 0 else 1

/-- Number of tokens of a peptide-sequence string: one per residue symbol,
plus one for a leading N-terminal marker run (the source notation gives
the marker its own token and its own score). -/
def tokenCount (s : List Char) : ℕ :=
  s.countP isResidueChar + leadAdjust s.head?

/-- Number of comma-separated fields of a score string (`s.split(",")`
always has one more field than there are commas). -/
def numFields (s : String) : ℕ := s.toList.count ',' + 1

/-! ### Basic facts about the character classes and list utilities -/

lemma stringToList_mk (l : List Char) : (⟨l⟩ : String).toList = l := rfl

lemma stringMk_toList (s : String) : (⟨s.toList⟩ : String) = s := by
  cases s; rfl

lemma marker_not_residue {c : Char} (h : isMarkerChar c = true) :
    isResidueChar c = false := by
  rcases hb : isResidueChar c with _ | _
  · rfl
  · exfalso
    simp only [isResidueChar, Bool.and_eq_true, decide_eq_true_eq] at hb
    simp only [isMarkerChar, isDigitChar, Bool.or_eq_true, beq_iff_eq, Bool.and_eq_true,
      decide_eq_true_eq] at h
    rcases h with ((⟨h1, h2⟩ | h) | h) | h
    · omega
    · subst h; exact absurd hb (by decide)
    · subst h; exact absurd hb (by decide)
    · subst h; exact absurd hb (by decide)

lemma residue_not_marker {c : Char} (h : isResidueChar c = true) :
    isMarkerChar c = false := by
  rcases hb : isMarkerChar c with _ | _
  · rfl
  · rw [marker_not_residue hb] at h
    exact absurd h (by decide)

lemma eq_append_of_isPrefixOf : ∀ {pat s : List Char}, pat.isPrefixOf s = true →
    s = pat ++ s.drop pat.length := by
  intro pat
  induction pat with
  | nil => intro s h; simp
  | cons p ps ih =>
    intro s h
    match s with
    | [] => exact absurd h (by simp [List.isPrefixOf])
    | c :: rest =>
      simp only [List.isPrefixOf, Bool.and_eq_true, beq_iff_eq] at h
      obtain ⟨h1, h2⟩ := h
      subst h1
      simp only [List.cons_append, List.length_cons, List.drop_succ_cons, List.cons.injEq,
        true_and]
      exact ih h2

lemma countP_replaceAllAux (p : Char → Bool)
    (hc : List.countP p replOld = List.countP p replNew) :
    ∀ fuel s, List.countP p (replaceAllAux replOld replNew fuel s) = List.countP p s := by
  intro fuel
  induction fuel with
  | zero => intro s; rfl
  | succ n ih =>
    intro s
    match s with
    | [] => rfl
    | c :: rest =>
      rw [replaceAllAux]
      by_cases hp : replOld.isPrefixOf (c :: rest) = true
      · rw [if_pos hp, List.countP_append, ih]
        conv_rhs => rw [eq_append_of_isPrefixOf hp]
        rw [List.countP_append, hc]
      · rw [if_neg hp, List.countP_cons, List.countP_cons, ih]

lemma head_replaceAllAux :
    ∀ fuel s, (replaceAllAux replOld replNew fuel s).head? = s.head? := by
  intro fuel
  induction fuel with
  | zero => intro s; rfl
  | succ n ih =>
    intro s
    match s with
    | [] => rfl
    | c :: rest =>
      rw [replaceAllAux]
      by_cases hp : replOld.isPrefixOf (c :: rest) = true
      · rw [if_pos hp]
        have hc : c = 'C' := by
          have h := eq_append_of_isPrefixOf hp
          simp only [replOld, replTail, List.cons_append] at h
          exact (List.cons.injEq _ _ _ _).mp h |>.1
        simp [replNew, hc]
      · rw [if_neg hp]; rfl

lemma replaceAllAux_of_not_contains {pat new : List Char} :
    ∀ fuel s, containsSub pat s = false → replaceAllAux pat new fuel s = s := by
  intro fuel
  induction fuel with
  | zero => intro s _; rfl
  | succ n ih =>
    intro s hs
    match s with
    | [] => rfl
    | c :: rest =>
      simp only [containsSub, Bool.or_eq_false_iff] at hs
      rw [replaceAllAux, if_neg (by simp [hs.1]), ih rest hs.2]

lemma contains_of_isPrefixOf {pat s : List Char} (hne : pat ≠ [])
    (h : pat.isPrefixOf s = true) : containsSub pat s = true := by
  match s with
  | [] =>
    match pat, hne with
    | p :: ps, _ => exact absurd h (by simp [List.isPrefixOf])
  | c :: rest => simp [containsSub, h]

lemma contains_append_right {pat y : List Char} (x : List Char)
    (h : containsSub pat y = true) : containsSub pat (x ++ y) = true := by
  induction x with
  | nil => exact h
  | cons c cs ih => simp [containsSub, ih]

lemma not_contains_of_append {pat x y : List Char}
    (h : containsSub pat (x ++ y) = false) : containsSub pat y = false := by
  rcases hb : containsSub pat y with _ | _
  · rfl
  · rw [contains_append_right x hb] at h
    exact absurd h (by decide)

lemma isPrefixOf_of_isPrefixOf_replaceAllAux :
    ∀ fuel (w s : List Char), 'C' ∉ w →
      w.isPrefixOf (replaceAllAux replOld replNew fuel s) = true →
      w.isPrefixOf s = true := by
  intro fuel
  induction fuel with
  | zero => intro w s _ h; exact h
  | succ n ih =>
    intro w s hw h
    match s with
    | [] => exact h
    | c :: rest =>
      rw [replaceAllAux] at h
      by_cases hp : replOld.isPrefixOf (c :: rest) = true
      · rw [if_pos hp] at h
        match w, hw, h with
        | [], _, _ => rfl
        | wc :: wrest, hw, h =>
          exfalso
          simp only [replNew, List.cons_append, List.nil_append, List.isPrefixOf,
            Bool.and_eq_true, beq_iff_eq] at h
          exact hw (h.1 ▸ List.mem_cons_self wc wrest)
      · rw [if_neg hp] at h
        match w, h with
        | [], _ => rfl
        | wc :: wrest, h =>
          simp only [List.isPrefixOf, Bool.and_eq_true] at h ⊢
          exact ⟨h.1, ih wrest rest (fun hm => hw (List.mem_cons_of_mem wc hm)) h.2⟩

lemma isPrefixOf_append_self : ∀ (x z : List Char), x.isPrefixOf (x ++ z) = true := by
  intro x z
  induction x with
  | nil => simp [List.isPrefixOf]
  | cons a as ih => simp [List.isPrefixOf, ih]

lemma replNew_append (x : List Char) : replNew ++ x = 'C' :: x := rfl

lemma not_contains_replaceAllAux :
    ∀ fuel s, s.length ≤ fuel → containsSub replOldDoubled s = false →
      containsSub replOld (replaceAllAux replOld replNew fuel s) = false := by
  intro fuel
  induction fuel with
  | zero =>
    intro s hs _
    have he : s = [] := List.length_eq_zero.mp (Nat.le_zero.mp hs)
    subst he; rfl
  | succ n ih =>
    intro s hlen hdub
    match s with
    | [] => rfl
    | c :: rest =>
      rw [replaceAllAux]
      by_cases hp : replOld.isPrefixOf (c :: rest) = true
      · rw [if_pos hp]
        have hst : c :: rest = replOld ++ (c :: rest).drop replOld.length :=
          eq_append_of_isPrefixOf hp
        have hdt : containsSub replOldDoubled ((c :: rest).drop replOld.length) = false := by
          refine not_contains_of_append (x := replOld) ?_
          rw [← hst]; exact hdub
        have hlt : ((c :: rest).drop replOld.length).length ≤ n := by
          simp only [List.length_drop, List.length_cons]
          simp only [List.length_cons] at hlen
          simp only [replOld, replTail, List.length_cons]
          omega
        have IH := ih _ hlt hdt
        rw [replNew_append]
        simp only [containsSub, Bool.or_eq_false_iff]
        refine ⟨Bool.eq_false_iff.mpr fun hb => ?_, IH⟩
        rw [replOld, List.isPrefixOf] at hb
        simp only [Bool.and_eq_true, beq_iff_eq] at hb
        have htail : replTail.isPrefixOf ((c :: rest).drop replOld.length) = true :=
          isPrefixOf_of_isPrefixOf_replaceAllAux n replTail _ (by decide) hb.2
        have hdbl : replOldDoubled.isPrefixOf (c :: rest) = true := by
          rw [hst]
          have hsp : (c :: rest).drop replOld.length
              = replTail ++ ((c :: rest).drop replOld.length).drop replTail.length :=
            eq_append_of_isPrefixOf htail
          rw [replOldDoubled]
          conv_lhs => rw [hsp]
          rw [← List.append_assoc]
          exact isPrefixOf_append_self (replOld ++ replTail) _
        rw [contains_of_isPrefixOf (by decide) hdbl] at hdub
        exact absurd hdub (by decide)
      · rw [if_neg hp]
        have hdr : containsSub replOldDoubled rest = false := by
          simp only [containsSub, Bool.or_eq_false_iff] at hdub
          exact hdub.2
        have IH := ih rest (by simp only [List.length_cons] at hlen; omega) hdr
        simp only [containsSub, Bool.or_eq_false_iff]
        refine ⟨Bool.eq_false_iff.mpr fun hb => ?_, IH⟩
        rw [replOld, List.isPrefixOf] at hb
        simp only [Bool.and_eq_true, beq_iff_eq] at hb
        have htail : replTail.isPrefixOf rest = true :=
          isPrefixOf_of_isPrefixOf_replaceAllAux n replTail rest (by decide) hb.2
        have hcr : replOld.isPrefixOf (c :: rest) = true := by
          rw [replOld, List.isPrefixOf]
          simp only [Bool.and_eq_true, beq_iff_eq]
          exact ⟨hb.1, htail⟩
        exact hp hcr

lemma tokenCount_applyReplacements (s : List Char) :
    tokenCount (applyReplacements s) = tokenCount s := by
  unfold tokenCount applyReplacements replaceAll
  rw [countP_replaceAllAux isResidueChar (by decide), head_replaceAllAux]

lemma nTerm_decomp {s : List Char} (h : nTermMatches s = true) :
    ∃ m0 ms a r, s.takeWhile isMarkerChar = m0 :: ms ∧
      s.dropWhile isMarkerChar = a :: r ∧ isResidueChar a = true ∧
      s = (m0 :: ms) ++ a :: r ∧ nTermSub s = a :: ((m0 :: ms) ++ r) := by
  unfold nTermMatches at h
  rcases htw : s.takeWhile isMarkerChar with _ | ⟨m0, ms⟩
  · rw [htw] at h; exact absurd h (by simp)
  rcases hdw : s.dropWhile isMarkerChar with _ | ⟨a, r⟩
  · rw [htw, hdw] at h; exact absurd h (by simp)
  rw [htw, hdw] at h
  refine ⟨m0, ms, a, r, rfl, rfl, h, ?_, ?_⟩
  · conv_lhs => rw [← List.takeWhile_append_dropWhile (p := isMarkerChar) (l := s)]
    rw [htw, hdw]
  · unfold nTermSub
    rw [hdw, htw]

lemma countP_residue_marker_run {s mk : List Char}
    (htw : s.takeWhile isMarkerChar = mk) : List.countP isResidueChar mk = 0 := by
  refine List.countP_eq_zero.mpr fun c hc => ?_
  have hm : isMarkerChar c = true := List.mem_takeWhile_imp (htw ▸ hc)
  simp [marker_not_residue hm]

lemma splitOnComma_ne_nil : ∀ s : List Char, splitOnComma s ≠ []
  | [] => by simp [splitOnComma]
  | c :: rest => by
    by_cases hc : c = ','
    · simp [splitOnComma, hc]
    · rcases h : splitOnComma rest with _ | ⟨f, fs⟩
      · exact absurd h (splitOnComma_ne_nil rest)
      · simp [splitOnComma, hc, h]

lemma splitOnComma_length (s : List Char) :
    (splitOnComma s).length = s.count ',' + 1 := by
  induction s with
  | nil => rfl
  | cons c rest ih =>
    by_cases hc : c = ','
    · subst hc
      simp [splitOnComma, List.count_cons, ih]
    · rcases hsp : splitOnComma rest with _ | ⟨f, fs⟩
      · exact absurd hsp (splitOnComma_ne_nil rest)
      · rw [hsp] at ih
        simp [splitOnComma, hc, hsp, List.count_cons, Ne.symm hc, ← ih]

lemma parseFields_length : ∀ {xs : List (List Char)} {l : List Dec},
    parseFields xs = some l → l.length = xs.length := by
  intro xs
  induction xs with
  | nil =>
    intro l h
    simp only [parseFields, Option.some.injEq] at h
    subst h; rfl
  | cons x xs ih =>
    intro l h
    simp only [parseFields] at h
    rcases hx : parseFloat x with _ | v <;> rw [hx] at h
    · exact absurd h (by simp)
    rcases hxs : parseFields xs with _ | vs <;> rw [hxs] at h
    · exact absurd h (by simp)
    · simp only [Option.some.injEq] at h
      subst h
      simp [ih hxs]

lemma parse_scores_length {s : List Char} {l : List Dec}
    (h : parse_scores s = some l) : l.length = s.count ',' + 1 := by
  unfold parse_scores at h
  rw [parseFields_length h, splitOnComma_length]

lemma digitChar_isDigit (n : ℕ) : isDigitChar (digitChar n) = true := by
  unfold digitChar
  generalize n % 10 = k
  match k with
  | 0 => decide
  | 1 => decide
  | 2 => decide
  | 3 => decide
  | 4 => decide
  | 5 => decide
  | 6 => decide
  | 7 => decide
  | 8 => decide
  | 9 => decide
  | k + 10 =>
    rw [List.getD_eq_default]
    · decide
    · simp

lemma mem_natToCharsAux : ∀ fuel n c, c ∈ natToCharsAux fuel n → isDigitChar c = true := by
  intro fuel
  induction fuel with
  | zero => intro n c h; exact absurd h (List.not_mem_nil c)
  | succ m ih =>
    intro n c h
    rw [natToCharsAux] at h
    by_cases hn : n < 10
    · rw [if_pos hn] at h
      rw [List.mem_singleton.mp h]
      exact digitChar_isDigit _
    · rw [if_neg hn] at h
      rcases List.mem_append.mp h with h | h
      · exact ih _ _ h
      · rw [List.mem_singleton.mp h]
        exact digitChar_isDigit _

lemma comma_not_mem_natToChars (n : ℕ) : ',' ∉ natToChars n := by
  intro h
  have := mem_natToCharsAux _ _ _ h
  exact absurd this (by decide)

lemma comma_not_mem_formatScoreParts (n : ℤ) (e : ℕ) : ',' ∉ formatScoreParts n e := by
  intro h
  unfold formatScoreParts at h
  rcases List.mem_append.mp h with h | h
  · rcases List.mem_append.mp h with h | h
    · by_cases hn : n < 0
      · rw [if_pos hn] at h
        exact absurd (List.mem_singleton.mp h) (by decide)
      · rw [if_neg hn] at h
        exact absurd h (List.not_mem_nil ',')
    · exact comma_not_mem_natToChars _ h
  · rcases List.mem_cons.mp h with h | h
    · exact absurd h (by decide)
    · unfold padZeros at h
      rcases List.mem_append.mp h with h | h
      · exact absurd (List.eq_of_mem_replicate h) (by decide)
      · exact comma_not_mem_natToChars _ h

lemma comma_not_mem_formatScore (d : Dec) : ',' ∉ formatScore d := by
  unfold formatScore
  by_cases h0 : (decNorm d.num d.exp).2 = 0
  · rw [if_pos h0]; exact comma_not_mem_formatScoreParts _ _
  · rw [if_neg h0]; exact comma_not_mem_formatScoreParts _ _

lemma count_comma_format_scores : ∀ l : List Dec, l ≠ [] →
    (format_scores l).count ',' + 1 = l.length := by
  intro l
  induction l with
  | nil => intro h; exact absurd rfl h
  | cons x xs ih =>
    intro _
    match xs with
    | [] =>
      simp [format_scores, joinComma, List.count_eq_zero.mpr (comma_not_mem_formatScore x)]
    | y :: ys =>
      have h2 := ih (by simp)
      have hx0 : (formatScore x).count ',' = 0 :=
        List.count_eq_zero.mpr (comma_not_mem_formatScore x)
      have hj : format_scores (x :: y :: ys)
          = formatScore x ++ ',' :: format_scores (y :: ys) := rfl
      rw [hj, List.count_append, hx0, List.count_cons_self]
      simp only [List.length_cons] at h2 ⊢
      omega

lemma takeWhile_append_of_all {p : Char → Bool} :
    ∀ (m t : List Char), (∀ c ∈ m, p c = true) →
      (m ++ t).takeWhile p = m ++ t.takeWhile p := by
  intro m
  induction m with
  | nil => intro t _; rfl
  | cons c cs ih =>
    intro t h
    simp only [List.cons_append, List.takeWhile_cons]
    rw [h c (List.mem_cons_self c cs)]
    simp only [if_true]
    rw [ih t (fun x hx => h x (List.mem_cons_of_mem c hx))]

lemma dropWhile_append_of_all {p : Char → Bool} :
    ∀ (m t : List Char), (∀ c ∈ m, p c = true) →
      (m ++ t).dropWhile p = t.dropWhile p := by
  intro m
  induction m with
  | nil => intro t _; rfl
  | cons c cs ih =>
    intro t h
    simp only [List.cons_append, List.dropWhile_cons]
    rw [h c (List.mem_cons_self c cs)]
    simp only [if_true]
    exact ih t (fun x hx => h x (List.mem_cons_of_mem c hx))

/-! ### The claims -/

/-- C2: `format_sequence_and_scores` on the sequence `"+42.011GKPEPT"`
with scores `"1.0,2.0,3.0,4.0,5.0,6.0,7.0"` returns the sequence
`"G+42.011KPEPT"` and the scores `"1.5,3.0,4.0,5.0,6.0,7.0"`: the first
two scores are replaced by their arithmetic mean `1.5`, the remaining
five are unchanged, and the score count drops from 7 to 6. -/
theorem C2_n_term_relocation_example :
    format_sequence_and_scores "+42.011GKPEPT" "1.0,2.0,3.0,4.0,5.0,6.0,7.0"
      = .ok ("G+42.011KPEPT", "1.5,3.0,4.0,5.0,6.0,7.0") := by decide

/-- C7: `format_scan_index` on `"ms_run[3]:index=7"` returns `"F2:7"`:
the bracketed `3` becomes `2` with the prefix letter `F`, the lowercase
marker text together with `'='` and `'_'` is stripped, and the spectrum
ordinal `7` is preserved after the colon. -/
theorem C7_scan_index_example :
    format_scan_index "ms_run[3]:index=7" = "F2:7" := by decide

/-- C3, counterexample: on a bracketed file number `0`,
`format_scan_index` silently returns `"F-1:7"` — it does not raise any
error, contradicting the claim that a zero bracketed number is reported
as a format error instead of producing a negative file index. -/
theorem C3_counterexample :
    format_scan_index "ms_run[0]:index=7" = "F-1:7" := by decide

/-- C3, amended: a bracketed `1` maps to the canonical prefix `F0` (no
underflow), but a zero bracketed number produces `F-1` silently and an
absent bracketed number passes through (with markers stripped) with no
error raised. -/
theorem C3_amended_boundary :
    format_scan_index "ms_run[1]:index=7" = "F0:7" ∧
      format_scan_index "ms_run[0]:index=7" = "F-1:7" ∧
      format_scan_index "ms_run:index=7" = ":7" := by decide

/-- C8: for every row batch lacking a score column, `format_output` does
not apply any sequence-only transform — it fails with the
`AttributeError` for the missing `format_sequence` method before touching
any row, so no scan index is remapped either. -/
theorem C8_missing_score_column_attribute_error (rows : List Row) :
    format_output false rows = .error DriverError.missingFormatSequence := rfl

/-- C4, counterexample: one pass of the fixed-substitution step over
`"C+57.021+57.021"` yields `"C+57.021"`, which still contains the
replaced spelling, so a second pass changes the string again — the step
is not idempotent and matches can survive the first pass. -/
theorem C4_counterexample :
    applyReplacementsStr (applyReplacementsStr "C+57.021+57.021")
        ≠ applyReplacementsStr "C+57.021+57.021" ∧
      containsSub replOld (applyReplacementsStr "C+57.021+57.021").toList = true := by
  decide

/-- C4, amended: for every sequence string that does not contain the
doubled spelling `"C+57.021+57.021"`, applying the fixed-substitution
step twice yields the same string as applying it once, and after the
first pass no match of the replaced spelling remains. -/
theorem C4_amended_idempotent_without_doubled (s : String)
    (h : containsSub replOldDoubled s.toList = false) :
    applyReplacementsStr (applyReplacementsStr s) = applyReplacementsStr s ∧
      containsSub replOld (applyReplacementsStr s).toList = false := by
  have h2 : containsSub replOld (applyReplacements s.toList) = false := by
    unfold applyReplacements replaceAll
    exact not_contains_replaceAllAux s.toList.length s.toList le_rfl h
  constructor
  · unfold applyReplacementsStr
    rw [stringToList_mk]
    congr 1
    unfold applyReplacements replaceAll
    exact replaceAllAux_of_not_contains _ _ h2
  · rw [applyReplacementsStr, stringToList_mk]
    exact h2

theorem C4_amended_witness :
    applyReplacementsStr (applyReplacementsStr "AC+57.021GK")
      = applyReplacementsStr "AC+57.021GK" :=
  (C4_amended_idempotent_without_doubled "AC+57.021GK" (by decide)).1

/-- C5, counterexample: a score string that fails to parse passes through
`format_sequence_and_scores` untouched whenever the sequence has no
N-terminal marker — the scores are never parsed, so no error is raised,
contradicting the claim that malformed scores fail hard regardless of the
accompanying sequence. -/
theorem C5_counterexample :
    parse_scores "not,a,float".toList = none ∧
      format_sequence_and_scores "GKPEPT" "not,a,float"
        = .ok ("GKPEPT", "not,a,float") := by decide

/-- C5, amended: when the score string fails to parse as comma-separated
floats AND the sequence (after fixed substitutions) matches the
N-terminal modification pattern, `format_sequence_and_scores` fails hard
with the parse error rather than defaulting. -/
theorem C5_amended_parse_failure_on_n_term_match (sequence aa_scores : String)
    (hm : nTermMatches (applyReplacements sequence.toList) = true)
    (hp : parse_scores aa_scores.toList = none) :
    format_sequence_and_scores sequence aa_scores = .error .scoreParseError := by
  simp only [format_sequence_and_scores]
  rw [if_pos hm, hp]

theorem C5_amended_witness :
    format_sequence_and_scores "+1G" "abc" = .error AlignError.scoreParseError :=
  C5_amended_parse_failure_on_n_term_match "+1G" "abc" (by decide) (by decide)

/-- C6: a sequence containing no occurrence of the replaced spelling
`"C+57.021"` and not beginning with an N-terminal modification marker
(one or more characters from `[0-9.+-]` followed by an uppercase letter)
passes through `format_sequence_and_scores` with both the sequence and
the score string byte-identical to the inputs. -/
theorem C6_no_marker_pass_through (sequence aa_scores : String)
    (h1 : containsSub replOld sequence.toList = false)
    (h2 : nTermMatches sequence.toList = false) :
    format_sequence_and_scores sequence aa_scores = .ok (sequence, aa_scores) := by
  have e : applyReplacements sequence.toList = sequence.toList := by
    unfold applyReplacements replaceAll
    exact replaceAllAux_of_not_contains _ _ h1
  simp only [format_sequence_and_scores, e, h2]
  rw [if_neg (by simp)]
  rw [stringMk_toList]

theorem C6_witness :
    format_sequence_and_scores "GKPEPT" "1.0,2.0,3.0,4.0,5.0,6.0"
      = .ok ("GKPEPT", "1.0,2.0,3.0,4.0,5.0,6.0") :=
  C6_no_marker_pass_through _ _ (by decide) (by decide)

/-- C9: when the sequence (after fixed substitutions) matches the
N-terminal pattern and the score string parses to fewer than 2 scores,
`format_sequence_and_scores` fails with the out-of-range (`IndexError`)
failure at the score-merge step; with at least 2 parsed scores that
failure is unreachable and the call succeeds. -/
theorem C9_short_score_list_index_error (sequence aa_scores : String) (l : List Dec)
    (hm : nTermMatches (applyReplacements sequence.toList) = true)
    (hp : parse_scores aa_scores.toList = some l) :
    (l.length < 2 →
        format_sequence_and_scores sequence aa_scores = .error .indexError) ∧
      (2 ≤ l.length →
        ∃ out, format_sequence_and_scores sequence aa_scores = .ok out) := by
  constructor
  · intro hlen
    simp only [format_sequence_and_scores]
    rw [if_pos hm, hp]
    rcases l with _ | ⟨s0, l1⟩
    · rfl
    rcases l1 with _ | ⟨s1, l2⟩
    · rfl
    · simp only [List.length_cons] at hlen
      omega
  · intro hlen
    rcases l with _ | ⟨s0, l1⟩
    · exact absurd hlen (by decide)
    rcases l1 with _ | ⟨s1, l2⟩
    · exact absurd hlen (by simp)
    refine ⟨(⟨nTermSub (applyReplacements sequence.toList)⟩,
      ⟨format_scores ((s0.add s1).half :: l2)⟩), ?_⟩
    simp only [format_sequence_and_scores]
    rw [if_pos hm, hp]

theorem C9_witness :
    format_sequence_and_scores "+1G" "0.5" = .error AlignError.indexError :=
  (C9_short_score_list_index_error "+1G" "0.5" [⟨5, 1⟩] (by decide) (by decide)).1
    (by decide)

/-- C10: a sequence beginning with two or more concatenated modification
markers before the first residue is handled by treating the entire
marker run as a single N-terminal marker: the whole run is relocated as
one suffix after the first residue, and exactly one score is removed,
averaging only the first two scores — the input is not passed through
unchanged. -/
theorem C10_multi_marker_run_single_relocation
    (m1 m2 r : List Char) (a : Char) (aa_scores : String)
    (s0 s1 : Dec) (srest : List Dec)
    (h1 : m1 ≠ []) (h2 : m2 ≠ [])
    (hmk : ∀ c ∈ m1 ++ m2, isMarkerChar c = true)
    (ha : isResidueChar a = true)
    (hrep : containsSub replOld (m1 ++ m2 ++ a :: r) = false)
    (hp : parse_scores aa_scores.toList = some (s0 :: s1 :: srest)) :
    format_sequence_and_scores ⟨m1 ++ m2 ++ a :: r⟩ aa_scores =
      .ok (⟨a :: (m1 ++ m2 ++ r)⟩, ⟨format_scores ((s0.add s1).half :: srest)⟩) := by
  have e : applyReplacements (m1 ++ m2 ++ a :: r) = m1 ++ m2 ++ a :: r := by
    unfold applyReplacements replaceAll
    exact replaceAllAux_of_not_contains _ _ hrep
  have htw : (m1 ++ m2 ++ a :: r).takeWhile isMarkerChar = m1 ++ m2 := by
    rw [takeWhile_append_of_all (m1 ++ m2) (a :: r) hmk, List.takeWhile_cons,
      residue_not_marker ha]
    simp
  have hdw : (m1 ++ m2 ++ a :: r).dropWhile isMarkerChar = a :: r := by
    rw [dropWhile_append_of_all (m1 ++ m2) (a :: r) hmk, List.dropWhile_cons,
      residue_not_marker ha]
    simp
  have hm : nTermMatches (m1 ++ m2 ++ a :: r) = true := by
    unfold nTermMatches
    rw [htw, hdw]
    rcases m1 with _ | ⟨c, cs⟩
    · exact absurd rfl h1
    · simp only [List.cons_append]
      exact ha
  have hsub : nTermSub (m1 ++ m2 ++ a :: r) = a :: ((m1 ++ m2) ++ r) := by
    unfold nTermSub
    rw [hdw]
    show a :: ((m1 ++ m2 ++ a :: r).takeWhile isMarkerChar ++ r) = _
    rw [htw]
  simp only [format_sequence_and_scores, stringToList_mk]
  rw [e, if_pos hm, hp]
  show Except.ok ((⟨nTermSub (m1 ++ m2 ++ a :: r)⟩ : String),
    (⟨format_scores ((s0.add s1).half :: srest)⟩ : String)) = _
  rw [hsub]

theorem C10_witness :
    format_sequence_and_scores "+42.011+15.995G" "1.0,2.0"
      = .ok ("G+42.011+15.995", "1.5") :=
  C10_multi_marker_run_single_relocation "+42.011".toList "+15.995".toList [] 'G'
    "1.0,2.0" ⟨10, 1⟩ ⟨20, 1⟩ [] (by decide) (by decide) (by decide) (by decide)
    (by decide) (by decide)

/-- C1: for every valid aligned input — a peptide sequence over residue
and marker characters and a parsable comma-separated score string with
one score per token — `format_sequence_and_scores` succeeds and the
output has exactly as many comma-separated scores as the output sequence
has tokens. -/
theorem C1_token_score_count_invariant (sequence aa_scores : String) (l : List Dec)
    (hv : seqValid sequence.toList = true)
    (hp : parse_scores aa_scores.toList = some l)
    (hl : l.length = tokenCount sequence.toList) :
    ∃ out : String × String,
      format_sequence_and_scores sequence aa_scores = .ok out ∧
        numFields out.2 = tokenCount out.1.toList := by
  by_cases hm : nTermMatches (applyReplacements sequence.toList) = true
  · obtain ⟨m0, ms, a, r, htw, hdw, ha, hseq, hsub⟩ := nTerm_decomp hm
    have htc := tokenCount_applyReplacements sequence.toList
    have hm0 : isMarkerChar m0 = true :=
      List.mem_takeWhile_imp (by rw [htw]; exact List.mem_cons_self m0 ms)
    have hcnt : tokenCount (applyReplacements sequence.toList)
        = List.countP isResidueChar r + 2 := by
      rw [hseq]
      unfold tokenCount
      rw [List.countP_append, countP_residue_marker_run htw, List.countP_cons, ha]
      simp only [List.cons_append, List.head?_cons, leadAdjust]
      rw [marker_not_residue hm0]
      simp
    have hlen2 : l.length = List.countP isResidueChar r + 2 := by
      rw [hl, ← htc, hcnt]
    rcases l with _ | ⟨s0, l1⟩
    · simp at hlen2
    rcases l1 with _ | ⟨s1, rest⟩
    · simp [List.length_cons] at hlen2
    have hrest : rest.length = List.countP isResidueChar r := by
      simp only [List.length_cons] at hlen2
      omega
    refine ⟨(⟨nTermSub (applyReplacements sequence.toList)⟩,
      ⟨format_scores ((s0.add s1).half :: rest)⟩), ?_, ?_⟩
    · simp only [format_sequence_and_scores]
      rw [if_pos hm, hp]
    · unfold numFields
      rw [stringToList_mk, stringToList_mk,
        count_comma_format_scores _ (by simp), hsub]
      unfold tokenCount
      simp only [List.head?_cons, leadAdjust, ha, List.countP_cons, List.countP_append,
        countP_residue_marker_run htw, List.length_cons]
      simp [hrest]
  · refine ⟨(⟨applyReplacements sequence.toList⟩, aa_scores), ?_, ?_⟩
    · simp only [format_sequence_and_scores]
      rw [if_neg hm]
    · show aa_scores.toList.count ',' + 1 = tokenCount (applyReplacements sequence.toList)
      rw [tokenCount_applyReplacements]
      have hcount := parse_scores_length hp
      omega

theorem C1_witness :
    ∃ out : String × String,
      format_sequence_and_scores "+42.011GKPEPT" "1.0,2.0,3.0,4.0,5.0,6.0,7.0"
          = .ok out ∧
        numFields out.2 = tokenCount out.1.toList :=
  C1_token_score_count_invariant _ _
    [⟨10, 1⟩, ⟨20, 1⟩, ⟨30, 1⟩, ⟨40, 1⟩, ⟨50, 1⟩, ⟨60, 1⟩, ⟨70, 1⟩]
    (by decide) (by decide) (by decide)
